import Mathlib

/-!
Verification of the quantize/dequantize codec of `src/data.ts`
(`quantizeFloats` / `dequantizeFloats`).

Embedding choices:
* A `Float32Array` element is modelled by its 32-bit IEEE-754 binary32 bit
  pattern, a natural number `< 2^32`.  The numeric value of a finite pattern
  is computed exactly in `ℚ` by `f32Val`.  Patterns with exponent field 255
  (±infinity / NaN) receive nominal rational values from `f32Val`; every
  theorem about numeric values carries finiteness hypotheses, matching the
  spec, which leaves NaN behavior unspecified.
* JavaScript number arithmetic inside the codec is modelled exactly over `ℚ`
  (the idealized real-arithmetic reading of the algorithm used by the spec).
  `Math.round` is `jsRound` (floor of x + 1/2, i.e. round half toward +∞).
  A store into a `Uint8Array` applies ToUint8, i.e. `Int.emod 256`.
* The encoded `ArrayBuffer` is a `List ℕ` of bytes.  `setFloat32(…, true)`
  writes the 4 bytes of the tracked bit pattern little-endian (`le4`);
  `getFloat32(…, true)` reassembles a word from 4 bytes (`leWord`).
* `quantizeFloats` throws on empty input (`Except.error` with the source's
  message).  `dequantizeFloats` on a buffer shorter than 8 bytes throws a
  RangeError from the `DataView` constructor; this failure is modelled as
  `none`.
-/

namespace QuantCodec

/-- `Math.round` on a finite number: the integer nearest to `x`, halves
rounded toward +∞, i.e. `⌊x + 1/2⌋`. -/
def jsRound (x : ℚ) : ℤ := Int.floor (x + 1 / 2)

/-- Sign bit of a 32-bit float pattern. -/
def f32Sign (n : ℕ) : ℕ := n / 2 ^ 31 % 2

/-- Biased exponent field (8 bits) of a 32-bit float pattern. -/
def f32Exp (n : ℕ) : ℕ := n / 2 ^ 23 % 256

/-- Fraction field (23 bits) of a 32-bit float pattern. -/
def f32Frac (n : ℕ) : ℕ := n % 2 ^ 23

/-- The pattern denotes a finite value (exponent field ≠ 255,
so neither ±infinity nor NaN). -/
def f32IsFinite (n : ℕ) : Prop := f32Exp n ≠ 255

instance (n : ℕ) : Decidable (f32IsFinite n) := by
  unfold f32IsFinite; infer_instance

/-- Exact rational value of a finite binary32 bit pattern: normal numbers are
`±(2^23 + frac)·2^(exp-150)`, subnormals `±frac·2^(-149)`; both are written
over the common denominator `2^150`.  Exponent-255 patterns get a nominal
value (unused: all value-level theorems assume `f32IsFinite`). -/
def f32Val (n : ℕ) : ℚ :=
  let sgn : ℚ := if f32Sign n = 1 then -1 else 1
  let sig : ℚ :=
    if f32Exp n = 0 then (f32Frac n : ℚ) * 2
    else ((2 ^ 23 + f32Frac n : ℕ) : ℚ) * 2 ^ f32Exp n
  sgn * sig / 2 ^ 150

/-- Classification of a 32-bit pattern as a JavaScript number. -/
inductive F32Class where
  | negInf : F32Class
  | finite : ℚ → F32Class
  | posInf : F32Class
  | nan : F32Class
deriving DecidableEq

/-- Classify a pattern. -/
def f32Class (n : ℕ) : F32Class :=
  if f32Exp n = 255 then
    if f32Frac n = 0 then (if f32Sign n = 1 then .negInf else .posInf)
    else .nan
  else .finite (f32Val n)

/-- JavaScript `<` on classified numbers: any comparison with NaN is false,
-∞ is below everything else, +∞ above. -/
def fltClass : F32Class → F32Class → Bool
  | _, .nan => false
  | .nan, _ => false
  | .negInf, .negInf => false
  | .negInf, _ => true
  | .finite _, .negInf => false
  | .finite a, .finite b => decide (a < b)
  | .finite _, .posInf => true
  | .posInf, _ => false

/-- `val < minVal` on bit patterns (the comparison in the min scan). -/
def fltB (a b : ℕ) : Bool := fltClass (f32Class a) (f32Class b)

/-- Bit pattern of `+Infinity` (the initial `minVal`). -/
def posInfBits : ℕ := 0x7f800000

/-- Bit pattern of `-Infinity` (the initial `maxVal`). -/
def negInfBits : ℕ := 0xff800000

/-- One step of the min scan: `if (val < minVal) minVal = val`. -/
def updateMin (cur b : ℕ) : ℕ := if fltB b cur then b else cur

/-- One step of the max scan: `if (val > maxVal) maxVal = val`. -/
def updateMax (cur b : ℕ) : ℕ := if fltB cur b then b else cur

/-- The single-pass min/max scan of `quantizeFloats`, tracking the bit
patterns of the current `minVal` and `maxVal` (initially ±Infinity). -/
def scanMinMax (data : List ℕ) : ℕ × ℕ :=
  data.foldl (fun mm b => (updateMin mm.1 b, updateMax mm.2 b))
    (posInfBits, negInfBits)

/-- The 4 bytes of a 32-bit word, little-endian (`setFloat32(…, true)`). -/
def le4 (n : ℕ) : List ℕ :=
  [n % 256, n / 256 % 256, n / 65536 % 256, n / 16777216 % 256]

/-- Reassemble a 32-bit word from 4 little-endian bytes
(`getFloat32(…, true)`). -/
def leWord (b0 b1 b2 b3 : ℕ) : ℕ := b0 + 256 * b1 + 65536 * b2 + 16777216 * b3

/-- The payload loop of `quantizeFloats`: all zeros when `extent == 0`,
otherwise `round(((v - min) / extent) * 255)` stored through ToUint8
(`emod 256`). -/
def quantPayload (minVal maxVal : ℚ) (data : List ℕ) : List ℕ :=
  if maxVal - minVal = 0 then List.replicate data.length 0
  else
    data.map fun b =>
      ((jsRound ((f32Val b - minVal) / (maxVal - minVal) * 255)).emod 256).toNat

/-- `quantizeFloats`: throws on an empty array; otherwise 8-byte header
(min, max as little-endian float32) followed by one quantized byte per
sample. -/
def quantizeFloats (data : List ℕ) : Except String (List ℕ) :=
  if data.length = 0 then .error "Cannot compress empty array"
  else
    let minBits := (scanMinMax data).1
    let maxBits := (scanMinMax data).2
    .ok (le4 minBits ++ le4 maxBits ++
      quantPayload (f32Val minBits) (f32Val maxBits) data)

/-- The `convert` helper of `dequantizeFloats`. -/
def convert (minVal extent : ℚ) (q : ℕ) : ℚ :=
  if extent = 0 then minVal else minVal + ((q : ℚ) / 255) * extent

/-- `dequantizeFloats`: reads min and max as little-endian float32 from the
first 8 bytes, then linearly rescales each payload byte.  Constructing
`DataView(buf, 0, 8)` on a buffer shorter than 8 bytes throws a RangeError,
modelled as `none`. -/
def dequantizeFloats (buf : List ℕ) : Option (ℚ × ℚ × List ℚ) :=
  if buf.length < 8 then none
  else
    let minVal := f32Val (leWord (buf.getD 0 0) (buf.getD 1 0)
      (buf.getD 2 0) (buf.getD 3 0))
    let maxVal := f32Val (leWord (buf.getD 4 0) (buf.getD 5 0)
      (buf.getD 6 0) (buf.getD 7 0))
    some (minVal, maxVal, (buf.drop 8).map (convert minVal (maxVal - minVal)))

/-- Mathematical minimum of a non-empty list of rationals (0 for `[]`). -/
def listMinQ : List ℚ → ℚ
  | [] => 0
  | q :: t => t.foldl min q

/-- Mathematical maximum of a non-empty list of rationals (0 for `[]`). -/
def listMaxQ : List ℚ → ℚ
  | [] => 0
  | q :: t => t.foldl max q

/-- Modelled from the spec: round half away from zero (one of the two
rounding rules the spec permits for the quantizer). -/
def roundHalfAway (y : ℚ) : ℤ :=
  if 0 ≤ y then Int.floor (y + 1 / 2) else Int.ceil (y - 1 / 2)

/-- Modelled from the spec: clamp an integer to the byte range [0, 255]. -/
def clampByte (q : ℤ) : ℤ := max 0 (min 255 q)

/-! ### Basic facts about `jsRound` -/

lemma jsRound_le (x : ℚ) : (jsRound x : ℚ) ≤ x + 1 / 2 := Int.floor_le _

lemma lt_jsRound (x : ℚ) : x - 1 / 2 < (jsRound x : ℚ) := by
  have h := Int.lt_floor_add_one (x + 1 / 2)
  unfold jsRound
  linarith

lemma abs_jsRound_sub_le (x : ℚ) : |(jsRound x : ℚ) - x| ≤ 1 / 2 := by
  rw [abs_le]
  constructor
  · linarith [lt_jsRound x]
  · linarith [jsRound_le x]

lemma jsRound_nonneg {x : ℚ} (h : 0 ≤ x) : 0 ≤ jsRound x := by
  rw [jsRound, Int.le_floor]
  push_cast
  linarith

lemma jsRound_le_255 {x : ℚ} (h : x ≤ 255) : jsRound x ≤ 255 := by
  have h1 : ((jsRound x : ℤ) : ℚ) < 256 := lt_of_le_of_lt (jsRound_le x) (by linarith)
  exact_mod_cast Int.lt_add_one_iff.mp (by exact_mod_cast h1)

lemma jsRound_intCast (n : ℤ) : jsRound (n : ℚ) = n := by
  rw [jsRound, Int.floor_eq_iff]
  constructor
  · linarith
  · linarith

/-! ### Minimum and maximum of lists of rationals -/

lemma foldl_min_le_init (t : List ℚ) (q : ℚ) : t.foldl min q ≤ q := by
  induction t generalizing q with
  | nil => simp
  | cons b t ih => exact le_trans (ih (min q b)) (min_le_left _ _)

lemma foldl_min_le_mem (t : List ℚ) (q a : ℚ) (ha : a ∈ t) : t.foldl min q ≤ a := by
  induction t generalizing q with
  | nil => cases ha
  | cons b t ih =>
    rcases List.mem_cons.mp ha with h | h
    · subst h
      exact le_trans (foldl_min_le_init t (min q a)) (min_le_right _ _)
    · exact ih (min q b) h

lemma foldl_min_mem (t : List ℚ) (q : ℚ) : t.foldl min q = q ∨ t.foldl min q ∈ t := by
  induction t generalizing q with
  | nil => left; rfl
  | cons b t ih =>
    rcases ih (min q b) with h | h
    · rcases min_cases q b with ⟨hm, _⟩ | ⟨hm, _⟩
      · left; rw [List.foldl_cons, h, hm]
      · right; rw [List.foldl_cons, h, hm]; exact List.mem_cons_self _ _
    · right
      exact List.mem_cons_of_mem _ h

lemma listMinQ_le (l : List ℚ) (a : ℚ) (ha : a ∈ l) : listMinQ l ≤ a := by
  match l with
  | [] => cases ha
  | q :: t =>
    rcases List.mem_cons.mp ha with h | h
    · subst h; exact foldl_min_le_init t a
    · exact foldl_min_le_mem t q a h

lemma listMinQ_mem (l : List ℚ) (hl : l ≠ []) : listMinQ l ∈ l := by
  match l with
  | q :: t =>
    rcases foldl_min_mem t q with h | h
    · rw [listMinQ, h]; exact List.mem_cons_self _ _
    · exact List.mem_cons_of_mem _ h

lemma foldl_max_init_le (t : List ℚ) (q : ℚ) : q ≤ t.foldl max q := by
  induction t generalizing q with
  | nil => simp
  | cons b t ih => exact le_trans (le_max_left _ _) (ih (max q b))

lemma foldl_max_mem_le (t : List ℚ) (q a : ℚ) (ha : a ∈ t) : a ≤ t.foldl max q := by
  induction t generalizing q with
  | nil => cases ha
  | cons b t ih =>
    rcases List.mem_cons.mp ha with h | h
    · subst h
      exact le_trans (le_max_right _ _) (foldl_max_init_le t (max q a))
    · exact ih (max q b) h

lemma foldl_max_mem (t : List ℚ) (q : ℚ) : t.foldl max q = q ∨ t.foldl max q ∈ t := by
  induction t generalizing q with
  | nil => left; rfl
  | cons b t ih =>
    rcases ih (max q b) with h | h
    · rcases max_cases q b with ⟨hm, _⟩ | ⟨hm, _⟩
      · left; rw [List.foldl_cons, h, hm]
      · right; rw [List.foldl_cons, h, hm]; exact List.mem_cons_self _ _
    · right
      exact List.mem_cons_of_mem _ h

lemma le_listMaxQ (l : List ℚ) (a : ℚ) (ha : a ∈ l) : a ≤ listMaxQ l := by
  match l with
  | [] => cases ha
  | q :: t =>
    rcases List.mem_cons.mp ha with h | h
    · subst h; exact foldl_max_init_le t a
    · exact foldl_max_mem_le t q a h

lemma listMaxQ_mem (l : List ℚ) (hl : l ≠ []) : listMaxQ l ∈ l := by
  match l with
  | q :: t =>
    rcases foldl_max_mem t q with h | h
    · rw [listMaxQ, h]; exact List.mem_cons_self _ _
    · exact List.mem_cons_of_mem _ h

lemma listMinQ_le_listMaxQ (l : List ℚ) (hl : l ≠ []) : listMinQ l ≤ listMaxQ l :=
  le_trans (listMinQ_le l _ (listMaxQ_mem l hl)) le_rfl

/-! ### Little-endian byte splitting -/

lemma leWord_le4 (n : ℕ) (h : n < 2 ^ 32) :
    leWord (n % 256) (n / 256 % 256) (n / 65536 % 256) (n / 16777216 % 256) = n := by
  unfold leWord
  omega

/-! ### The min/max scan -/

lemma f32Class_finite {n : ℕ} (h : f32IsFinite n) : f32Class n = .finite (f32Val n) := by
  rw [f32Class, if_neg h]

lemma fltB_finite {a b : ℕ} (ha : f32IsFinite a) (hb : f32IsFinite b) :
    fltB a b = decide (f32Val a < f32Val b) := by
  rw [fltB, f32Class_finite ha, f32Class_finite hb]
  rfl

lemma f32Class_posInfBits : f32Class posInfBits = .posInf := by decide

lemma f32Class_negInfBits : f32Class negInfBits = .negInf := by decide

lemma fltB_finite_posInf {b : ℕ} (hb : f32IsFinite b) : fltB b posInfBits = true := by
  rw [fltB, f32Class_finite hb, f32Class_posInfBits]
  rfl

lemma fltB_negInf_finite {b : ℕ} (hb : f32IsFinite b) : fltB negInfBits b = true := by
  rw [fltB, f32Class_finite hb, f32Class_negInfBits]
  rfl

lemma foldl_updateMin_spec (l : List ℕ) (hl : ∀ b ∈ l, f32IsFinite b) (s : ℕ)
    (hs : f32IsFinite s) :
    (l.foldl updateMin s = s ∨ l.foldl updateMin s ∈ l) ∧
      f32IsFinite (l.foldl updateMin s) ∧
      f32Val (l.foldl updateMin s) ≤ f32Val s ∧
      ∀ b ∈ l, f32Val (l.foldl updateMin s) ≤ f32Val b := by
  induction l generalizing s with
  | nil => exact ⟨Or.inl rfl, hs, le_rfl, by simp⟩
  | cons b t ih =>
    have hb : f32IsFinite b := hl b (List.mem_cons_self _ _)
    have ht : ∀ c ∈ t, f32IsFinite c := fun c hc => hl c (List.mem_cons_of_mem _ hc)
    have hstep : (updateMin s b = s ∨ updateMin s b = b) ∧ f32IsFinite (updateMin s b) ∧
        f32Val (updateMin s b) ≤ f32Val s ∧ f32Val (updateMin s b) ≤ f32Val b := by
      rw [updateMin, fltB_finite hb hs]
      by_cases hcmp : f32Val b < f32Val s
      · rw [if_pos (by simpa using hcmp)]
        exact ⟨Or.inr rfl, hb, le_of_lt hcmp, le_rfl⟩
      · rw [if_neg (by simpa using hcmp)]
        exact ⟨Or.inl rfl, hs, le_rfl, le_of_not_lt hcmp⟩
    obtain ⟨hmem, hfin, hles, hleb⟩ := hstep
    obtain ⟨imem, ifin, iles, ilel⟩ := ih ht (updateMin s b) hfin
    rw [List.foldl_cons]
    refine ⟨?_, ifin, ?_, ?_⟩
    · rcases imem with h | h
      · rcases hmem with h2 | h2
        · exact Or.inl (h.trans h2)
        · exact Or.inr (by rw [h, h2]; exact List.mem_cons_self _ _)
      · exact Or.inr (List.mem_cons_of_mem _ h)
    · exact le_trans iles hles
    · intro c hc
      rcases List.mem_cons.mp hc with h | h
      · rw [h] at *
        exact le_trans iles hleb
      · exact ilel c h

lemma foldl_updateMax_spec (l : List ℕ) (hl : ∀ b ∈ l, f32IsFinite b) (s : ℕ)
    (hs : f32IsFinite s) :
    (l.foldl updateMax s = s ∨ l.foldl updateMax s ∈ l) ∧
      f32IsFinite (l.foldl updateMax s) ∧
      f32Val s ≤ f32Val (l.foldl updateMax s) ∧
      ∀ b ∈ l, f32Val b ≤ f32Val (l.foldl updateMax s) := by
  induction l generalizing s with
  | nil => exact ⟨Or.inl rfl, hs, le_rfl, by simp⟩
  | cons b t ih =>
    have hb : f32IsFinite b := hl b (List.mem_cons_self _ _)
    have ht : ∀ c ∈ t, f32IsFinite c := fun c hc => hl c (List.mem_cons_of_mem _ hc)
    have hstep : (updateMax s b = s ∨ updateMax s b = b) ∧ f32IsFinite (updateMax s b) ∧
        f32Val s ≤ f32Val (updateMax s b) ∧ f32Val b ≤ f32Val (updateMax s b) := by
      rw [updateMax, fltB_finite hs hb]
      by_cases hcmp : f32Val s < f32Val b
      · rw [if_pos (by simpa using hcmp)]
        exact ⟨Or.inr rfl, hb, le_of_lt hcmp, le_rfl⟩
      · rw [if_neg (by simpa using hcmp)]
        exact ⟨Or.inl rfl, hs, le_rfl, le_of_not_lt hcmp⟩
    obtain ⟨hmem, hfin, hles, hleb⟩ := hstep
    obtain ⟨imem, ifin, iles, ilel⟩ := ih ht (updateMax s b) hfin
    rw [List.foldl_cons]
    refine ⟨?_, ifin, ?_, ?_⟩
    · rcases imem with h | h
      · rcases hmem with h2 | h2
        · exact Or.inl (h.trans h2)
        · exact Or.inr (by rw [h, h2]; exact List.mem_cons_self _ _)
      · exact Or.inr (List.mem_cons_of_mem _ h)
    · exact le_trans hles iles
    · intro c hc
      rcases List.mem_cons.mp hc with h | h
      · rw [h] at *
        exact le_trans hleb iles
      · exact ilel c h

lemma foldl_pair_split (l : List ℕ) (a c : ℕ) :
    l.foldl (fun mm b => (updateMin mm.1 b, updateMax mm.2 b)) (a, c) =
      (l.foldl updateMin a, l.foldl updateMax c) := by
  induction l generalizing a c with
  | nil => rfl
  | cons b t ih => rw [List.foldl_cons, List.foldl_cons, List.foldl_cons, ih]

lemma scanMinMax_min_spec (l : List ℕ) (hne : l ≠ []) (hfin : ∀ b ∈ l, f32IsFinite b) :
    (scanMinMax l).1 ∈ l ∧ ∀ b ∈ l, f32Val (scanMinMax l).1 ≤ f32Val b := by
  match l with
  | b :: t =>
    have hb : f32IsFinite b := hfin b (List.mem_cons_self _ _)
    have ht : ∀ c ∈ t, f32IsFinite c := fun c hc => hfin c (List.mem_cons_of_mem _ hc)
    have hfirst : updateMin posInfBits b = b := by
      rw [updateMin, fltB_finite_posInf hb, if_pos rfl]
    rw [scanMinMax, List.foldl_cons, foldl_pair_split]
    simp only [hfirst]
    obtain ⟨imem, _, iles, ilel⟩ := foldl_updateMin_spec t ht b hb
    refine ⟨?_, ?_⟩
    · rcases imem with h | h
      · rw [h]; exact List.mem_cons_self _ _
      · exact List.mem_cons_of_mem _ h
    · intro c hc
      rcases List.mem_cons.mp hc with h | h
      · rw [h]; exact iles
      · exact ilel c h

lemma scanMinMax_max_spec (l : List ℕ) (hne : l ≠ []) (hfin : ∀ b ∈ l, f32IsFinite b) :
    (scanMinMax l).2 ∈ l ∧ ∀ b ∈ l, f32Val b ≤ f32Val (scanMinMax l).2 := by
  match l with
  | b :: t =>
    have hb : f32IsFinite b := hfin b (List.mem_cons_self _ _)
    have ht : ∀ c ∈ t, f32IsFinite c := fun c hc => hfin c (List.mem_cons_of_mem _ hc)
    have hfirst : updateMax negInfBits b = b := by
      rw [updateMax, fltB_negInf_finite hb, if_pos rfl]
    rw [scanMinMax, List.foldl_cons, foldl_pair_split]
    simp only [hfirst]
    obtain ⟨imem, _, iles, ilel⟩ := foldl_updateMax_spec t ht b hb
    refine ⟨?_, ?_⟩
    · rcases imem with h | h
      · rw [h]; exact List.mem_cons_self _ _
      · exact List.mem_cons_of_mem _ h
    · intro c hc
      rcases List.mem_cons.mp hc with h | h
      · rw [h]; exact iles
      · exact ilel c h

lemma scanMinMax_fst_val (l : List ℕ) (hne : l ≠ []) (hfin : ∀ b ∈ l, f32IsFinite b) :
    f32Val (scanMinMax l).1 = listMinQ (l.map f32Val) := by
  obtain ⟨hmem, hle⟩ := scanMinMax_min_spec l hne hfin
  apply le_antisymm
  · obtain ⟨b, hb, hv⟩ := List.mem_map.mp
      (listMinQ_mem (l.map f32Val) (fun h => hne (List.map_eq_nil_iff.mp h)))
    rw [← hv]
    exact hle b hb
  · exact listMinQ_le _ _ (List.mem_map_of_mem _ hmem)

lemma scanMinMax_snd_val (l : List ℕ) (hne : l ≠ []) (hfin : ∀ b ∈ l, f32IsFinite b) :
    f32Val (scanMinMax l).2 = listMaxQ (l.map f32Val) := by
  obtain ⟨hmem, hle⟩ := scanMinMax_max_spec l hne hfin
  apply le_antisymm
  · exact le_listMaxQ _ _ (List.mem_map_of_mem _ hmem)
  · obtain ⟨b, hb, hv⟩ := List.mem_map.mp
      (listMaxQ_mem (l.map f32Val) (fun h => hne (List.map_eq_nil_iff.mp h)))
    rw [← hv]
    exact hle b hb

/-! ### Shapes of the encoder and decoder outputs -/

lemma quantizeFloats_eq (data : List ℕ) (hne : data ≠ []) :
    quantizeFloats data =
      .ok (le4 (scanMinMax data).1 ++ le4 (scanMinMax data).2 ++
        quantPayload (f32Val (scanMinMax data).1) (f32Val (scanMinMax data).2) data) := by
  rw [quantizeFloats, if_neg (by simpa using hne)]

lemma quantPayload_length (minVal maxVal : ℚ) (data : List ℕ) :
    (quantPayload minVal maxVal data).length = data.length := by
  rw [quantPayload]
  split <;> simp

lemma quantPayload_getD_deg (minVal maxVal : ℚ) (data : List ℕ)
    (hz : maxVal - minVal = 0) (i : ℕ) (hi : i < data.length) :
    (quantPayload minVal maxVal data).getD i 0 = 0 := by
  rw [quantPayload, if_pos hz,
    List.getD_eq_getElem _ _ (by simpa using hi), List.getElem_replicate]

lemma quantPayload_getD (minVal maxVal : ℚ) (data : List ℕ)
    (hnz : maxVal - minVal ≠ 0) (i : ℕ) (hi : i < data.length) :
    (quantPayload minVal maxVal data).getD i 0 =
      ((jsRound ((f32Val (data.getD i 0) - minVal) / (maxVal - minVal) * 255)).emod
        256).toNat := by
  rw [quantPayload, if_neg hnz,
    List.getD_eq_getElem _ _ (by simpa using hi), List.getElem_map,
    List.getD_eq_getElem _ _ hi]

lemma dequantizeFloats_header (a b : ℕ) (ha : a < 2 ^ 32) (hb : b < 2 ^ 32) (p : List ℕ) :
    dequantizeFloats (le4 a ++ le4 b ++ p) =
      some (f32Val a, f32Val b, p.map (convert (f32Val a) (f32Val b - f32Val a))) := by
  have hsplit : le4 a ++ le4 b ++ p =
      a % 256 :: (a / 256 % 256) :: (a / 65536 % 256) :: (a / 16777216 % 256) ::
      (b % 256) :: (b / 256 % 256) :: (b / 65536 % 256) :: (b / 16777216 % 256) :: p := by
    simp [le4]
  rw [hsplit, dequantizeFloats]
  rw [if_neg (by simp)]
  simp only [List.getD_cons_zero, List.getD_cons_succ, List.drop_succ_cons, List.drop_zero]
  rw [leWord_le4 a ha, leWord_le4 b hb]

/-- Core quantization error bound over exact rationals: for a sample `v` in
`[minVal, maxVal]` with `minVal < maxVal`, dequantizing the quantized byte
recovers `v` up to half a quantization step, `(maxVal - minVal) / 510`. -/
lemma convert_quant_error (minVal maxVal v : ℚ) (h1 : minVal ≤ v) (h2 : v ≤ maxVal)
    (hlt : minVal < maxVal) :
    |convert minVal (maxVal - minVal)
        (((jsRound ((v - minVal) / (maxVal - minVal) * 255)).emod 256).toNat) - v| ≤
      (maxVal - minVal) / 510 := by
  have hepos : 0 < maxVal - minVal := by linarith
  have hene : maxVal - minVal ≠ 0 := ne_of_gt hepos
  set y : ℚ := (v - minVal) / (maxVal - minVal) * 255 with hy
  have hy0 : 0 ≤ y := by
    apply mul_nonneg _ (by norm_num)
    exact div_nonneg (by linarith) (le_of_lt hepos)
  have hy255 : y ≤ 255 := by
    have hle1 : (v - minVal) / (maxVal - minVal) ≤ 1 :=
      (div_le_one hepos).mpr (by linarith)
    have := mul_le_mul_of_nonneg_right hle1 (by norm_num : (0 : ℚ) ≤ 255)
    simpa [hy] using this
  have hq0 : 0 ≤ jsRound y := jsRound_nonneg hy0
  have hq255 : jsRound y ≤ 255 := jsRound_le_255 hy255
  have hmod : (jsRound y).emod 256 = jsRound y := Int.emod_eq_of_lt hq0 (by omega)
  have hcast : (((jsRound y).toNat : ℕ) : ℚ) = ((jsRound y : ℤ) : ℚ) := by
    exact_mod_cast congrArg (fun z : ℤ => (z : ℚ)) (Int.toNat_of_nonneg hq0)
  have hconv : convert minVal (maxVal - minVal) (((jsRound y).emod 256).toNat) =
      minVal + ((jsRound y : ℚ) / 255) * (maxVal - minVal) := by
    rw [convert, if_neg hene, hmod, hcast]
  have hv : v = minVal + y / 255 * (maxVal - minVal) := by
    rw [hy]
    field_simp
    ring
  have hup : (jsRound y : ℚ) - y ≤ 1 / 2 := by linarith [jsRound_le y]
  have hdown : -(1 / 2) ≤ (jsRound y : ℚ) - y := by linarith [lt_jsRound y]
  have hprod1 : ((jsRound y : ℚ) - y) * (maxVal - minVal) ≤ 1 / 2 * (maxVal - minVal) :=
    mul_le_mul_of_nonneg_right hup hepos.le
  have hprod2 : -(1 / 2) * (maxVal - minVal) ≤ ((jsRound y : ℚ) - y) * (maxVal - minVal) :=
    mul_le_mul_of_nonneg_right hdown hepos.le
  rw [hconv, abs_le]
  constructor
  · nlinarith [hv]
  · nlinarith [hv]

lemma jsRound_zero : jsRound 0 = 0 := by simpa using jsRound_intCast 0

lemma jsRound_255 : jsRound (255 : ℚ) = 255 := by simpa using jsRound_intCast 255

lemma header_getD (a b : ℕ) (ha : a < 2 ^ 32) (hb : b < 2 ^ 32) (p : List ℕ) :
    leWord ((le4 a ++ le4 b ++ p).getD 0 0) ((le4 a ++ le4 b ++ p).getD 1 0)
        ((le4 a ++ le4 b ++ p).getD 2 0) ((le4 a ++ le4 b ++ p).getD 3 0) = a ∧
      leWord ((le4 a ++ le4 b ++ p).getD 4 0) ((le4 a ++ le4 b ++ p).getD 5 0)
        ((le4 a ++ le4 b ++ p).getD 6 0) ((le4 a ++ le4 b ++ p).getD 7 0) = b := by
  have hsplit : le4 a ++ le4 b ++ p =
      a % 256 :: (a / 256 % 256) :: (a / 65536 % 256) :: (a / 16777216 % 256) ::
      (b % 256) :: (b / 256 % 256) :: (b / 65536 % 256) :: (b / 16777216 % 256) :: p := by
    simp [le4]
  rw [hsplit]
  simp only [List.getD_cons_zero, List.getD_cons_succ]
  exact ⟨leWord_le4 a ha, leWord_le4 b hb⟩

lemma map_const_replicate (l : List ℕ) (f : ℕ → ℚ) (c : ℚ) (h : ∀ q, f q = c) :
    l.map f = List.replicate l.length c := by
  induction l with
  | nil => rfl
  | cons b t ih => simp [h, ih, List.replicate]

/-- A quantized byte of a non-degenerate encode equals the spec's
clamp-then-round byte: since the normalized position is already in `[0, 1]`,
the clamp is the identity and `Math.round` agrees with
round-half-away-from-zero on nonnegative arguments. -/
lemma quantByte_eq_clamp (minVal maxVal v : ℚ) (h1 : minVal ≤ v) (h2 : v ≤ maxVal)
    (hlt : minVal < maxVal) :
    ((((jsRound ((v - minVal) / (maxVal - minVal) * 255)).emod 256).toNat : ℕ) : ℤ) =
      clampByte (roundHalfAway ((v - minVal) / (maxVal - minVal) * 255)) := by
  have hepos : 0 < maxVal - minVal := by linarith
  set y : ℚ := (v - minVal) / (maxVal - minVal) * 255 with hy
  have hy0 : 0 ≤ y := by
    apply mul_nonneg _ (by norm_num)
    exact div_nonneg (by linarith) (le_of_lt hepos)
  have hy255 : y ≤ 255 := by
    have hle1 : (v - minVal) / (maxVal - minVal) ≤ 1 :=
      (div_le_one hepos).mpr (by linarith)
    have := mul_le_mul_of_nonneg_right hle1 (by norm_num : (0 : ℚ) ≤ 255)
    simpa [hy] using this
  have hq0 : 0 ≤ jsRound y := jsRound_nonneg hy0
  have hq255 : jsRound y ≤ 255 := jsRound_le_255 hy255
  have hmod : (jsRound y).emod 256 = jsRound y := Int.emod_eq_of_lt hq0 (by omega)
  rw [hmod, Int.toNat_of_nonneg hq0, roundHalfAway, if_pos hy0, clampByte]
  rw [jsRound] at hq0 hq255 ⊢
  omega

/-! ### Claim theorems -/

/-- C6: for every non-empty input of length N, `quantizeFloats` succeeds and
the returned buffer has length exactly `8 + N`. -/
theorem encode_size_law (x : List ℕ) (hne : x ≠ []) :
    ∃ buf, quantizeFloats x = .ok buf ∧ buf.length = 8 + x.length := by
  refine ⟨_, quantizeFloats_eq x hne, ?_⟩
  simp [le4, quantPayload_length]
  omega

/-- C6 witness at the 3-sample input `[1.0, 2.0, 5.0]`. -/
theorem encode_size_law_witness :
    ∃ buf, quantizeFloats [1065353216, 1073741824, 1084227584] = .ok buf ∧
      buf.length = 8 + ([1065353216, 1073741824, 1084227584] : List ℕ).length :=
  encode_size_law [1065353216, 1073741824, 1084227584] (by decide)

/-- C8: `quantizeFloats` applied to the empty sequence fails with the
invalid-input error (`throw new Error('Cannot compress empty array')`) and
produces no buffer. -/
theorem encode_empty_error :
    quantizeFloats [] = .error "Cannot compress empty array" := rfl

/-- C9: `dequantizeFloats` on any buffer shorter than the 8-byte header fails
(the `DataView` constructor throws before any byte is read) and produces no
result. -/
theorem decode_truncated_fails (buf : List ℕ) (h : buf.length < 8) :
    dequantizeFloats buf = none := by
  rw [dequantizeFloats, if_pos h]

/-- C9 witness at a 3-byte buffer. -/
theorem decode_truncated_fails_witness : dequantizeFloats [0, 1, 2] = none :=
  decode_truncated_fails [0, 1, 2] (by decide)

/-- C1: round-trip bound.  For every non-empty list of finite (non-NaN)
float32 samples and every index `i`, the `i`-th decoded sample of
`dequantizeFloats (quantizeFloats x)` is within `(max(x) - min(x)) / 510`
(half a quantization step) of the original sample. -/
theorem roundtrip_error_bound (x : List ℕ) (hne : x ≠ [])
    (hfin : ∀ b ∈ x, f32IsFinite b) (hbits : ∀ b ∈ x, b < 2 ^ 32)
    (i : ℕ) (hi : i < x.length) :
    ∃ buf mv Mv samples,
      quantizeFloats x = .ok buf ∧
      dequantizeFloats buf = some (mv, Mv, samples) ∧
      |samples.getD i 0 - f32Val (x.getD i 0)| ≤
        (listMaxQ (x.map f32Val) - listMinQ (x.map f32Val)) / 510 := by
  set mv := listMinQ (x.map f32Val) with hmv
  set Mv := listMaxQ (x.map f32Val) with hMv
  obtain ⟨hmem1, _⟩ := scanMinMax_min_spec x hne hfin
  obtain ⟨hmem2, _⟩ := scanMinMax_max_spec x hne hfin
  have hv1 : f32Val (scanMinMax x).1 = mv := scanMinMax_fst_val x hne hfin
  have hv2 : f32Val (scanMinMax x).2 = Mv := scanMinMax_snd_val x hne hfin
  have hbb1 : (scanMinMax x).1 < 2 ^ 32 := hbits _ hmem1
  have hbb2 : (scanMinMax x).2 < 2 ^ 32 := hbits _ hmem2
  have henc : quantizeFloats x =
      .ok (le4 (scanMinMax x).1 ++ le4 (scanMinMax x).2 ++ quantPayload mv Mv x) := by
    rw [quantizeFloats_eq x hne, hv1, hv2]
  have hdec : dequantizeFloats
        (le4 (scanMinMax x).1 ++ le4 (scanMinMax x).2 ++ quantPayload mv Mv x) =
      some (mv, Mv, (quantPayload mv Mv x).map (convert mv (Mv - mv))) := by
    rw [dequantizeFloats_header _ _ hbb1 hbb2, hv1, hv2]
  refine ⟨_, mv, Mv, _, henc, hdec, ?_⟩
  have hi' : i < (quantPayload mv Mv x).length := by
    rw [quantPayload_length]; exact hi
  have hmapget : ((quantPayload mv Mv x).map (convert mv (Mv - mv))).getD i 0 =
      convert mv (Mv - mv) ((quantPayload mv Mv x).getD i 0) := by
    rw [List.getD_eq_getElem _ _ (by simpa using hi'), List.getElem_map,
      ← List.getD_eq_getElem _ _ hi']
  rw [hmapget]
  have hvmem : x.getD i 0 ∈ x := by
    rw [List.getD_eq_getElem _ _ hi]; exact List.getElem_mem hi
  have hmle : mv ≤ f32Val (x.getD i 0) := listMinQ_le _ _ (List.mem_map_of_mem _ hvmem)
  have hMge : f32Val (x.getD i 0) ≤ Mv := le_listMaxQ _ _ (List.mem_map_of_mem _ hvmem)
  by_cases hz : Mv - mv = 0
  · rw [convert, if_pos hz]
    have hvm : f32Val (x.getD i 0) = mv := le_antisymm (by linarith) hmle
    rw [hvm, hz]
    simp
  · have hlt : mv < Mv :=
      lt_of_le_of_ne (le_trans hmle hMge) (fun h => hz (by rw [h]; exact sub_self Mv))
    rw [quantPayload_getD _ _ _ hz i hi]
    exact convert_quant_error mv Mv _ hmle hMge hlt

/-- C1 witness at `x = [0.0, 1.0]`, index 1. -/
theorem roundtrip_error_bound_witness :
    ∃ buf mv Mv samples,
      quantizeFloats [0, 1065353216] = .ok buf ∧
      dequantizeFloats buf = some (mv, Mv, samples) ∧
      |samples.getD 1 0 - f32Val (([0, 1065353216] : List ℕ).getD 1 0)| ≤
        (listMaxQ (([0, 1065353216] : List ℕ).map f32Val) -
          listMinQ (([0, 1065353216] : List ℕ).map f32Val)) / 510 :=
  roundtrip_error_bound [0, 1065353216] (by decide) (by decide) (by decide) 1 (by decide)

/-- C2: for a non-empty finite (non-NaN) input whose extrema differ, the
payload byte written at position `i` (buffer offset `8 + i`) is
`round(((v - min) / extent) * 255)` with round-half-away-from-zero, clamped
to `[0, 255]` (the clamp is the identity here since the normalized value is
in `[0, 1]`). -/
theorem encode_byte_clamped_round (x : List ℕ) (hne : x ≠ [])
    (hfin : ∀ b ∈ x, f32IsFinite b) (_hbits : ∀ b ∈ x, b < 2 ^ 32)
    (hnz : listMaxQ (x.map f32Val) - listMinQ (x.map f32Val) ≠ 0)
    (i : ℕ) (hi : i < x.length) :
    ∃ buf, quantizeFloats x = .ok buf ∧
      ((buf.getD (8 + i) 0 : ℕ) : ℤ) =
        clampByte (roundHalfAway
          ((f32Val (x.getD i 0) - listMinQ (x.map f32Val)) /
            (listMaxQ (x.map f32Val) - listMinQ (x.map f32Val)) * 255)) := by
  set mv := listMinQ (x.map f32Val) with hmv
  set Mv := listMaxQ (x.map f32Val) with hMv
  obtain ⟨hmem1, _⟩ := scanMinMax_min_spec x hne hfin
  obtain ⟨hmem2, _⟩ := scanMinMax_max_spec x hne hfin
  have hv1 : f32Val (scanMinMax x).1 = mv := scanMinMax_fst_val x hne hfin
  have hv2 : f32Val (scanMinMax x).2 = Mv := scanMinMax_snd_val x hne hfin
  have henc : quantizeFloats x =
      .ok (le4 (scanMinMax x).1 ++ le4 (scanMinMax x).2 ++ quantPayload mv Mv x) := by
    rw [quantizeFloats_eq x hne, hv1, hv2]
  refine ⟨_, henc, ?_⟩
  have hhead : (le4 (scanMinMax x).1 ++ le4 (scanMinMax x).2).length = 8 := by
    simp [le4]
  have happ : (le4 (scanMinMax x).1 ++ le4 (scanMinMax x).2 ++
      quantPayload mv Mv x).getD (8 + i) 0 = (quantPayload mv Mv x).getD i 0 := by
    rw [List.getD_append_right _ _ _ _ (by omega), hhead]
    congr 1
    omega
  rw [happ]
  have hvmem : x.getD i 0 ∈ x := by
    rw [List.getD_eq_getElem _ _ hi]; exact List.getElem_mem hi
  have hmle : mv ≤ f32Val (x.getD i 0) := listMinQ_le _ _ (List.mem_map_of_mem _ hvmem)
  have hMge : f32Val (x.getD i 0) ≤ Mv := le_listMaxQ _ _ (List.mem_map_of_mem _ hvmem)
  have hlt : mv < Mv :=
    lt_of_le_of_ne (le_trans hmle hMge) (fun h => hnz (by rw [h]; exact sub_self Mv))
  rw [quantPayload_getD _ _ _ hnz i hi]
  exact quantByte_eq_clamp mv Mv _ hmle hMge hlt

/-- C2 witness at `x = [0.0, 1.0, 2.0]`, index 1. -/
theorem encode_byte_clamped_round_witness :
    ∃ buf, quantizeFloats [0, 1065353216, 1073741824] = .ok buf ∧
      ((buf.getD (8 + 1) 0 : ℕ) : ℤ) =
        clampByte (roundHalfAway
          ((f32Val (([0, 1065353216, 1073741824] : List ℕ).getD 1 0) -
              listMinQ (([0, 1065353216, 1073741824] : List ℕ).map f32Val)) /
            (listMaxQ (([0, 1065353216, 1073741824] : List ℕ).map f32Val) -
              listMinQ (([0, 1065353216, 1073741824] : List ℕ).map f32Val)) * 255)) :=
  encode_byte_clamped_round [0, 1065353216, 1073741824] (by decide) (by decide)
    (by decide) (by norm_num [listMinQ, listMaxQ, f32Val, f32Sign, f32Exp, f32Frac])
    1 (by decide)

/-- C3: for any buffer of length `L ≥ 8` whose (finite) header floats differ,
`dequantizeFloats` returns the header values and exactly `L - 8` samples,
the `i`-th being `min + (q / 255) * (max - min)` for payload byte
`q = buf[8 + i]`. -/
theorem decode_formula (buf : List ℕ) (hlen : 8 ≤ buf.length)
    (_hfin1 : f32IsFinite (leWord (buf.getD 0 0) (buf.getD 1 0) (buf.getD 2 0)
      (buf.getD 3 0)))
    (_hfin2 : f32IsFinite (leWord (buf.getD 4 0) (buf.getD 5 0) (buf.getD 6 0)
      (buf.getD 7 0)))
    (hnz : f32Val (leWord (buf.getD 4 0) (buf.getD 5 0) (buf.getD 6 0) (buf.getD 7 0)) -
      f32Val (leWord (buf.getD 0 0) (buf.getD 1 0) (buf.getD 2 0) (buf.getD 3 0)) ≠ 0) :
    ∃ samples,
      dequantizeFloats buf =
        some (f32Val (leWord (buf.getD 0 0) (buf.getD 1 0) (buf.getD 2 0) (buf.getD 3 0)),
          f32Val (leWord (buf.getD 4 0) (buf.getD 5 0) (buf.getD 6 0) (buf.getD 7 0)),
          samples) ∧
      samples.length = buf.length - 8 ∧
      ∀ i, i < buf.length - 8 →
        samples.getD i 0 =
          f32Val (leWord (buf.getD 0 0) (buf.getD 1 0) (buf.getD 2 0) (buf.getD 3 0)) +
            ((buf.getD (8 + i) 0 : ℚ) / 255) *
              (f32Val (leWord (buf.getD 4 0) (buf.getD 5 0) (buf.getD 6 0) (buf.getD 7 0)) -
                f32Val (leWord (buf.getD 0 0) (buf.getD 1 0) (buf.getD 2 0)
                  (buf.getD 3 0))) := by
  rw [dequantizeFloats, if_neg (by omega)]
  refine ⟨_, rfl, ?_, ?_⟩
  · simp
  · intro i hi
    have hlen8 : i < (buf.drop 8).length := by simp; omega
    have hmap : i < ((buf.drop 8).map (convert
        (f32Val (leWord (buf.getD 0 0) (buf.getD 1 0) (buf.getD 2 0) (buf.getD 3 0)))
        (f32Val (leWord (buf.getD 4 0) (buf.getD 5 0) (buf.getD 6 0) (buf.getD 7 0)) -
          f32Val (leWord (buf.getD 0 0) (buf.getD 1 0) (buf.getD 2 0)
            (buf.getD 3 0))))).length := by
      simpa using hlen8
    have hdrop : (buf.drop 8).getD i 0 = buf.getD (8 + i) 0 := by
      rw [List.getD_eq_getElem _ _ hlen8, List.getElem_drop, ← List.getD_eq_getElem]
    rw [List.getD_eq_getElem _ _ hmap, List.getElem_map,
      ← List.getD_eq_getElem _ _ hlen8, hdrop, convert, if_neg hnz]

/-- C3 witness at the buffer `[0,0,128,63, 0,0,160,64, 0,255]`
(header `min=1.0, max=5.0`, payload `[0, 255]`), index 1. -/
theorem decode_formula_witness :
    ∃ samples,
      dequantizeFloats [0, 0, 128, 63, 0, 0, 160, 64, 0, 255] =
        some (f32Val (leWord 0 0 128 63), f32Val (leWord 0 0 160 64), samples) ∧
      samples.length = ([0, 0, 128, 63, 0, 0, 160, 64, 0, 255] : List ℕ).length - 8 ∧
      ∀ i, i < ([0, 0, 128, 63, 0, 0, 160, 64, 0, 255] : List ℕ).length - 8 →
        samples.getD i 0 =
          f32Val (leWord 0 0 128 63) +
            ((([0, 0, 128, 63, 0, 0, 160, 64, 0, 255] : List ℕ).getD (8 + i) 0 : ℚ) / 255) *
              (f32Val (leWord 0 0 160 64) - f32Val (leWord 0 0 128 63)) :=
  decode_formula [0, 0, 128, 63, 0, 0, 160, 64, 0, 255] (by decide) (by decide) (by decide)
    (by norm_num [leWord, f32Val, f32Sign, f32Exp, f32Frac])

/-- C4: elements of `x` equal to `min(x)` are reconstructed by
decode-of-encode as exactly `min(x)`, and elements equal to `max(x)` as
exactly `max(x)` (byte 0 maps back to `min`, byte 255 to `max`). -/
theorem extrema_exact_recovery (x : List ℕ) (hne : x ≠ [])
    (hfin : ∀ b ∈ x, f32IsFinite b) (hbits : ∀ b ∈ x, b < 2 ^ 32)
    (i : ℕ) (hi : i < x.length) :
    ∃ buf samples,
      quantizeFloats x = .ok buf ∧
      dequantizeFloats buf =
        some (listMinQ (x.map f32Val), listMaxQ (x.map f32Val), samples) ∧
      (f32Val (x.getD i 0) = listMinQ (x.map f32Val) →
        samples.getD i 0 = listMinQ (x.map f32Val)) ∧
      (f32Val (x.getD i 0) = listMaxQ (x.map f32Val) →
        samples.getD i 0 = listMaxQ (x.map f32Val)) := by
  set mv := listMinQ (x.map f32Val) with hmv
  set Mv := listMaxQ (x.map f32Val) with hMv
  obtain ⟨hmem1, _⟩ := scanMinMax_min_spec x hne hfin
  obtain ⟨hmem2, _⟩ := scanMinMax_max_spec x hne hfin
  have hv1 : f32Val (scanMinMax x).1 = mv := scanMinMax_fst_val x hne hfin
  have hv2 : f32Val (scanMinMax x).2 = Mv := scanMinMax_snd_val x hne hfin
  have hbb1 : (scanMinMax x).1 < 2 ^ 32 := hbits _ hmem1
  have hbb2 : (scanMinMax x).2 < 2 ^ 32 := hbits _ hmem2
  have henc : quantizeFloats x =
      .ok (le4 (scanMinMax x).1 ++ le4 (scanMinMax x).2 ++ quantPayload mv Mv x) := by
    rw [quantizeFloats_eq x hne, hv1, hv2]
  have hdec : dequantizeFloats
        (le4 (scanMinMax x).1 ++ le4 (scanMinMax x).2 ++ quantPayload mv Mv x) =
      some (mv, Mv, (quantPayload mv Mv x).map (convert mv (Mv - mv))) := by
    rw [dequantizeFloats_header _ _ hbb1 hbb2, hv1, hv2]
  refine ⟨_, _, henc, hdec, ?_⟩
  have hi' : i < (quantPayload mv Mv x).length := by
    rw [quantPayload_length]; exact hi
  have hmapget : ((quantPayload mv Mv x).map (convert mv (Mv - mv))).getD i 0 =
      convert mv (Mv - mv) ((quantPayload mv Mv x).getD i 0) := by
    rw [List.getD_eq_getElem _ _ (by simpa using hi'), List.getElem_map,
      ← List.getD_eq_getElem _ _ hi']
  rw [hmapget]
  by_cases hz : Mv - mv = 0
  · have hMm : Mv = mv := by linarith [sub_eq_zero.mp hz]
    rw [convert, if_pos hz, hMm]
    exact ⟨fun _ => rfl, fun _ => rfl⟩
  · rw [quantPayload_getD _ _ _ hz i hi]
    constructor
    · intro h
      rw [h, sub_self, zero_div, zero_mul, jsRound_zero]
      rw [show ((0 : ℤ).emod 256).toNat = 0 from rfl]
      rw [convert, if_neg hz]
      norm_num
    · intro h
      rw [h, div_self hz, one_mul, jsRound_255]
      rw [show ((255 : ℤ).emod 256).toNat = 255 from rfl]
      rw [convert, if_neg hz]
      push_cast
      ring_nf

/-- C4 witness at `x = [0.0, 1.0]`, index 0 (an element equal to the
minimum). -/
theorem extrema_exact_recovery_witness :
    ∃ buf samples,
      quantizeFloats [0, 1065353216] = .ok buf ∧
      dequantizeFloats buf =
        some (listMinQ (([0, 1065353216] : List ℕ).map f32Val),
          listMaxQ (([0, 1065353216] : List ℕ).map f32Val), samples) ∧
      (f32Val (([0, 1065353216] : List ℕ).getD 0 0) =
          listMinQ (([0, 1065353216] : List ℕ).map f32Val) →
        samples.getD 0 0 = listMinQ (([0, 1065353216] : List ℕ).map f32Val)) ∧
      (f32Val (([0, 1065353216] : List ℕ).getD 0 0) =
          listMaxQ (([0, 1065353216] : List ℕ).map f32Val) →
        samples.getD 0 0 = listMaxQ (([0, 1065353216] : List ℕ).map f32Val)) :=
  extrema_exact_recovery [0, 1065353216] (by decide) (by decide) (by decide) 0 (by decide)

/-- C5: for a constant input (all samples with value `c`), encode writes an
all-zero payload and decode returns `min = max = c` with every reconstructed
sample exactly `c`. -/
theorem constant_input_roundtrip (x : List ℕ) (c : ℚ) (hne : x ≠ [])
    (hfin : ∀ b ∈ x, f32IsFinite b) (hbits : ∀ b ∈ x, b < 2 ^ 32)
    (hc : ∀ b ∈ x, f32Val b = c) :
    ∃ buf, quantizeFloats x = .ok buf ∧
      (∀ i, i < x.length → buf.getD (8 + i) 0 = 0) ∧
      dequantizeFloats buf = some (c, c, List.replicate x.length c) := by
  have hmapne : x.map f32Val ≠ [] := fun h => hne (List.map_eq_nil_iff.mp h)
  have hmvc : listMinQ (x.map f32Val) = c := by
    obtain ⟨b, hb, hv⟩ := List.mem_map.mp (listMinQ_mem _ hmapne)
    rw [← hv]
    exact hc b hb
  have hMvc : listMaxQ (x.map f32Val) = c := by
    obtain ⟨b, hb, hv⟩ := List.mem_map.mp (listMaxQ_mem _ hmapne)
    rw [← hv]
    exact hc b hb
  obtain ⟨hmem1, _⟩ := scanMinMax_min_spec x hne hfin
  obtain ⟨hmem2, _⟩ := scanMinMax_max_spec x hne hfin
  have hv1 : f32Val (scanMinMax x).1 = c := by
    rw [scanMinMax_fst_val x hne hfin, hmvc]
  have hv2 : f32Val (scanMinMax x).2 = c := by
    rw [scanMinMax_snd_val x hne hfin, hMvc]
  have hbb1 : (scanMinMax x).1 < 2 ^ 32 := hbits _ hmem1
  have hbb2 : (scanMinMax x).2 < 2 ^ 32 := hbits _ hmem2
  have henc : quantizeFloats x =
      .ok (le4 (scanMinMax x).1 ++ le4 (scanMinMax x).2 ++ quantPayload c c x) := by
    rw [quantizeFloats_eq x hne, hv1, hv2]
  refine ⟨_, henc, ?_, ?_⟩
  · intro i hi
    have hhead : (le4 (scanMinMax x).1 ++ le4 (scanMinMax x).2).length = 8 := by
      simp [le4]
    rw [List.getD_append_right _ _ _ _ (by omega), hhead,
      show 8 + i - 8 = i from by omega]
    exact quantPayload_getD_deg c c x (sub_self c) i hi
  · rw [dequantizeFloats_header _ _ hbb1 hbb2, hv1, hv2]
    rw [map_const_replicate _ _ c (fun q => by rw [convert, if_pos (sub_self c)]),
      quantPayload_length]

/-- C5 witness at `x = [42.5, 42.5, 42.5, 42.5]` (bit pattern 0x422a0000). -/
theorem constant_input_roundtrip_witness :
    ∃ buf, quantizeFloats [1110048768, 1110048768, 1110048768, 1110048768] = .ok buf ∧
      (∀ i, i < ([1110048768, 1110048768, 1110048768, 1110048768] : List ℕ).length →
        buf.getD (8 + i) 0 = 0) ∧
      dequantizeFloats buf =
        some (85 / 2, 85 / 2,
          List.replicate ([1110048768, 1110048768, 1110048768, 1110048768] : List ℕ).length
            (85 / 2)) :=
  constant_input_roundtrip [1110048768, 1110048768, 1110048768, 1110048768] (85 / 2)
    (by decide) (by decide) (by decide)
    (by
      intro b hb
      fin_cases hb <;> norm_num [f32Val, f32Sign, f32Exp, f32Frac])

/-- C7: encode computes the true minimum and maximum of the samples in one
fold and stores them, min first, as little-endian float32 in bytes [0,4) and
[4,8): reassembling those bytes little-endian and decoding them as binary32
yields exactly `min(x)` and `max(x)`. -/
theorem encode_header_extrema (x : List ℕ) (hne : x ≠ [])
    (hfin : ∀ b ∈ x, f32IsFinite b) (hbits : ∀ b ∈ x, b < 2 ^ 32) :
    ∃ buf, quantizeFloats x = .ok buf ∧
      f32Val (leWord (buf.getD 0 0) (buf.getD 1 0) (buf.getD 2 0) (buf.getD 3 0)) =
        listMinQ (x.map f32Val) ∧
      f32Val (leWord (buf.getD 4 0) (buf.getD 5 0) (buf.getD 6 0) (buf.getD 7 0)) =
        listMaxQ (x.map f32Val) := by
  obtain ⟨hmem1, _⟩ := scanMinMax_min_spec x hne hfin
  obtain ⟨hmem2, _⟩ := scanMinMax_max_spec x hne hfin
  have hbb1 : (scanMinMax x).1 < 2 ^ 32 := hbits _ hmem1
  have hbb2 : (scanMinMax x).2 < 2 ^ 32 := hbits _ hmem2
  refine ⟨_, quantizeFloats_eq x hne, ?_, ?_⟩
  · rw [(header_getD (scanMinMax x).1 (scanMinMax x).2 hbb1 hbb2 _).1]
    exact scanMinMax_fst_val x hne hfin
  · rw [(header_getD (scanMinMax x).1 (scanMinMax x).2 hbb1 hbb2 _).2]
    exact scanMinMax_snd_val x hne hfin

/-- C7 witness at `x = [2.0, 1.0]`. -/
theorem encode_header_extrema_witness :
    ∃ buf, quantizeFloats [1073741824, 1065353216] = .ok buf ∧
      f32Val (leWord (buf.getD 0 0) (buf.getD 1 0) (buf.getD 2 0) (buf.getD 3 0)) =
        listMinQ (([1073741824, 1065353216] : List ℕ).map f32Val) ∧
      f32Val (leWord (buf.getD 4 0) (buf.getD 5 0) (buf.getD 6 0) (buf.getD 7 0)) =
        listMaxQ (([1073741824, 1065353216] : List ℕ).map f32Val) :=
  encode_header_extrema [1073741824, 1065353216] (by decide) (by decide) (by decide)

/-- C10: for any buffer of length ≥ 8 whose (finite) header floats are
equal (`max - min == 0`), decode ignores the payload bytes entirely and
returns `min` for every one of the `L - 8` samples. -/
theorem decode_degenerate_ignores_payload (buf : List ℕ) (hlen : 8 ≤ buf.length)
    (_hfin1 : f32IsFinite (leWord (buf.getD 0 0) (buf.getD 1 0) (buf.getD 2 0)
      (buf.getD 3 0)))
    (_hfin2 : f32IsFinite (leWord (buf.getD 4 0) (buf.getD 5 0) (buf.getD 6 0)
      (buf.getD 7 0)))
    (hz : f32Val (leWord (buf.getD 4 0) (buf.getD 5 0) (buf.getD 6 0) (buf.getD 7 0)) -
      f32Val (leWord (buf.getD 0 0) (buf.getD 1 0) (buf.getD 2 0) (buf.getD 3 0)) = 0) :
    dequantizeFloats buf =
      some (f32Val (leWord (buf.getD 0 0) (buf.getD 1 0) (buf.getD 2 0) (buf.getD 3 0)),
        f32Val (leWord (buf.getD 4 0) (buf.getD 5 0) (buf.getD 6 0) (buf.getD 7 0)),
        List.replicate (buf.length - 8)
          (f32Val (leWord (buf.getD 0 0) (buf.getD 1 0) (buf.getD 2 0) (buf.getD 3 0)))) := by
  have hmap : (buf.drop 8).map
      (convert (f32Val (leWord (buf.getD 0 0) (buf.getD 1 0) (buf.getD 2 0) (buf.getD 3 0)))
        (f32Val (leWord (buf.getD 4 0) (buf.getD 5 0) (buf.getD 6 0) (buf.getD 7 0)) -
          f32Val (leWord (buf.getD 0 0) (buf.getD 1 0) (buf.getD 2 0) (buf.getD 3 0)))) =
      List.replicate (buf.length - 8)
        (f32Val (leWord (buf.getD 0 0) (buf.getD 1 0) (buf.getD 2 0) (buf.getD 3 0))) := by
    rw [map_const_replicate _ _ _ (fun q => by rw [convert, if_pos hz]),
      List.length_drop]
  rw [dequantizeFloats, if_neg (by omega)]
  simp only [hmap]

/-- C10 witness: header `min = max = 1.0` with the non-zero payload `[7, 9]`,
which is ignored. -/
theorem decode_degenerate_ignores_payload_witness :
    dequantizeFloats [0, 0, 128, 63, 0, 0, 128, 63, 7, 9] =
      some (f32Val (leWord 0 0 128 63), f32Val (leWord 0 0 128 63),
        List.replicate (([0, 0, 128, 63, 0, 0, 128, 63, 7, 9] : List ℕ).length - 8)
          (f32Val (leWord 0 0 128 63))) :=
  decode_degenerate_ignores_payload [0, 0, 128, 63, 0, 0, 128, 63, 7, 9] (by decide)
    (by decide) (by decide) (by norm_num)

end QuantCodec
